import Mathlib

/-!
A verification development for the filesystem-server core: the sandboxed
path resolver (`PathUtils.validatePath`) and the tolerant patch engine
(`FileEditor.applyFileEdits`).  Strings are embedded as `List Char`;
JavaScript string operations (`includes`, `replace`, `split`, `trim`,
`startsWith`, the `/^\s*/` match) are given explicit recursive
definitions below.  The Node `path`/`os` modules and the filesystem are
external collaborators of the source and are embedded as an explicit
dependency record and a `realpath` oracle, mirroring the source's
constructor-injected `deps` object.
-/

namespace FsServer

/-- Convert a string literal to the `List Char` representation used
throughout. -/
def toL (s : String) : List Char := s.toList

/-- JS `String.prototype.startsWith`: does `hay` start with `pre`? -/
def startsWithL : List Char → List Char → Bool
  | _, [] => true
  | [], _ :: _ => false
  | c :: cs, d :: ds => c == d && startsWithL cs ds

/-- JS `String.prototype.includes`: does `hay` contain `pat` as a
contiguous substring? -/
def containsL : List Char → List Char → Bool
  | [], pat => pat.isEmpty
  | c :: t, pat => startsWithL (c :: t) pat || containsL t pat

/-- JS `String.prototype.replace` with a plain-string pattern: replace
the first occurrence of `old` by `new`; if `old` does not occur the
string is returned unchanged (empty `old` matches at position 0). -/
def replaceFirst (hay old new : List Char) : List Char :=
  match hay with
  | [] => if old.isEmpty then new else []
  | c :: t =>
    if startsWithL (c :: t) old then new ++ (c :: t).drop old.length
    else c :: replaceFirst t old new

/-- Whitespace as matched by JS `trim` / `\s` (the ASCII cases; the
texts involved are ordinary source text). -/
def isWs (c : Char) : Bool :=
  c == ' ' || c == '\t' || c == '\n' || c == '\r' || c == '\x0b' || c == '\x0c'

/-- JS `String.prototype.trim`: strip leading and trailing whitespace. -/
def trimBoth (l : List Char) : List Char :=
  ((l.dropWhile isWs).reverse.dropWhile isWs).reverse

/-- JS `String.prototype.trimStart`. -/
def trimStartL (l : List Char) : List Char := l.dropWhile isWs

/-- JS `line.match(/^\s*/)?.[0] || ''`: the leading whitespace run. -/
def leadingWs (l : List Char) : List Char := l.takeWhile isWs

/-- `FileEditor.normalizeLineEndings`: `text.replace(/\r\n/g, '\n')` —
a single left-to-right scan replacing each `"\r\n"` by `"\n"`. -/
def normCRLF : List Char → List Char
  | [] => []
  | [c] => [c]
  | c1 :: c2 :: rest =>
    if c1 == '\r' && c2 == '\n' then '\n' :: normCRLF rest
    else c1 :: normCRLF (c2 :: rest)

/-- JS `String.prototype.split('\n')` (keeps empty segments, so the
result is always non-empty). -/
def splitNl : List Char → List (List Char)
  | [] => [[]]
  | c :: rest =>
    if c == '\n' then [] :: splitNl rest
    else
      match splitNl rest with
      | s :: ss => (c :: s) :: ss
      | [] => [[c]]

/-- JS `Array.prototype.join('\n')`. -/
def joinNl : List (List Char) → List Char
  | [] => []
  | [l] => l
  | l :: l2 :: rest => l ++ '\n' :: joinNl (l2 :: rest)

/-- JS `Array.prototype.join(', ')` as used in the access-denied
message. -/
def joinComma : List (List Char) → List Char
  | [] => []
  | [l] => l
  | l :: l2 :: rest => l ++ toL ", " ++ joinComma (l2 :: rest)

/-! ## Path resolver (`PathUtils`)

The Node `path`/`os` modules and `process.cwd()` are the source's
injected dependencies; they are embedded as the record below.  The
filesystem is embedded as a `realpath` oracle returning either the real
path or an error message (the source string-matches error messages, so
errors are messages). -/

/-- The pure path/os dependencies of `PathUtils` (`deps.path`,
`deps.os`, `process.cwd()`). -/
structure PathDeps where
  pathNormalize : List Char → List Char
  pathResolve1 : List Char → List Char
  pathResolve2 : List Char → List Char → List Char
  pathIsAbsolute : List Char → Bool
  pathDirname : List Char → List Char
  pathJoin : List Char → List Char → List Char
  homedir : List Char
  cwd : List Char

/-- A filesystem `realpath` oracle: `deps.fs.realpath`, returning the
symlink-resolved path or failing with an error message. -/
def Realpath : Type := List Char → Except (List Char) (List Char)

/-- `PathUtils.normalizePath`. -/
def normalizePath (d : PathDeps) (p : List Char) : List Char :=
  d.pathNormalize p

/-- `PathUtils.expandHome`: replace a leading `~` by the home
directory. -/
def expandHome (d : PathDeps) (filepath : List Char) : List Char :=
  if startsWithL filepath (toL "~/") || filepath == toL "~" then
    d.pathJoin d.homedir (filepath.drop 1)
  else filepath

/-- The `absolute` local of `validatePath`: home expansion followed by
resolution against the current working directory when relative. -/
def absoluteOf (d : PathDeps) (requestedPath : List Char) : List Char :=
  let expandedPath := expandHome d requestedPath
  if d.pathIsAbsolute expandedPath then d.pathResolve1 expandedPath
  else d.pathResolve2 d.cwd expandedPath

/-- The `normalizedRequested` local of `validatePath`. -/
def normalizedRequestedOf (d : PathDeps) (requestedPath : List Char) : List Char :=
  normalizePath d (absoluteOf d requestedPath)

/-- The allow-list membership test of `validatePath`, applied to the
nominal path and again to the real path:
`allowedDirectories.some(dir => p.startsWith(dir))`.  Note that this is
a raw string-prefix test, with no path-separator boundary check. -/
def isAllowedBy (allowedDirectories : List (List Char)) (p : List Char) : Bool :=
  allowedDirectories.any (fun dir => startsWithL p dir)

/-- Message of the first `Access denied` throw. -/
def accessDeniedOutsideMsg (absolute : List Char) (allowedDirectories : List (List Char)) :
    List Char :=
  toL "Access denied - path outside allowed directories: " ++ absolute ++
    toL " not in " ++ joinComma allowedDirectories

/-- Message of the symlink-escape `Access denied` throw. -/
def symlinkDeniedMsg : List Char :=
  toL "Access denied - symlink target outside allowed directories"

/-- The body of `validatePath`'s `try` block: resolve the real path and
re-check the allow-list against it.  A thrown error (including the
symlink `Access denied`) becomes the `Except.error` the surrounding
`catch` receives. -/
def tryRealPath (d : PathDeps) (fs : Realpath)
    (absolute : List Char) (allowedDirectories : List (List Char)) :
    Except (List Char) (List Char) :=
  match fs absolute with
  | .error e => .error e
  | .ok realPath =>
    let normalizedReal := normalizePath d realPath
    if !(isAllowedBy allowedDirectories normalizedReal) then .error symlinkDeniedMsg
    else .ok realPath

/-- `PathUtils.validatePath`.  The `catch` block distinguishes errors by
substring-matching their message: an `ENOENT` error triggers the
parent-directory fallback; every other error (the symlink
`Access denied` included) is re-thrown unchanged. -/
def validatePath (d : PathDeps) (fs : Realpath)
    (requestedPath : List Char) (allowedDirectories : List (List Char)) :
    Except (List Char) (List Char) :=
  let absolute := absoluteOf d requestedPath
  let normalizedRequested := normalizePath d absolute
  if !(isAllowedBy allowedDirectories normalizedRequested) then
    .error (accessDeniedOutsideMsg absolute allowedDirectories)
  else
    match tryRealPath d fs absolute allowedDirectories with
    | .ok v => .ok v
    | .error e =>
      if containsL e (toL "ENOENT") then
        let parentDir := d.pathDirname absolute
        match fs parentDir with
        | .ok _ => .ok absolute
        | .error _ => .error e
      else .error e

/-! A concrete instance of the path dependencies for witnesses and
counterexamples: the behaviour of Node's POSIX `path` module on the
already-normalized absolute slash-separated paths the examples use
(`normalize` and `resolve` are the identity there; `dirname` cuts at
the last separator). -/

/-- Node `path.dirname` for simple absolute paths: everything before the
last `/`, or `/` when the cut leaves nothing. -/
def simpleDirname (p : List Char) : List Char :=
  let r := (p.reverse.dropWhile (fun c => c != '/')).drop 1
  if r.isEmpty then toL "/" else r.reverse

/-- A `PathDeps` instance modelling Node's POSIX `path` module on
already-normal absolute paths: `normalize`/`resolve` act as the
identity, `isAbsolute` tests for a leading slash. -/
def posixDeps : PathDeps where
  pathNormalize := fun p => p
  pathResolve1 := fun p => p
  pathResolve2 := fun _ p => p
  pathIsAbsolute := fun p => startsWithL p (toL "/")
  pathDirname := simpleDirname
  pathJoin := fun a b => a ++ b
  homedir := toL "/home/user"
  cwd := toL "/cwd"

/-! ## Patch engine (`FileEditor`)

`applyFileEdits` is embedded from the point after `validatePath` and
`fs.readFile`: the file's content is an input, and instead of calling
`fs.writeFile` the result carries the content that is written
(`some modified`) or `none` when no write happens (`dryRun`).  An
exception aborts before the write statement, so an `Except.error`
result carries no write.  The external `createTwoFilesPatch` from the
`diff` package is a parameter `mkDiff` (specialised to the file path
and labels), mirroring the source's dependency style. -/

/-- One element of the `edits` array: `{oldText, newText}`. -/
structure Edit where
  oldText : List Char
  newText : List Char
deriving DecidableEq

/-- `FileEditor.createUnifiedDiff` with the external diff generator as
the `mkDiff` parameter: both sides are line-ending-normalized before
the diff is computed. -/
def createUnifiedDiff (mkDiff : List Char → List Char → List Char)
    (originalContent newContent : List Char) : List Char :=
  mkDiff (normCRLF originalContent) (normCRLF newContent)

/-- The fuzzy window-match test:
`oldLines.every((oldLine, j) => oldLine.trim() === potentialMatch[j].trim())`,
where `potentialMatch` has exactly `oldLines.length` lines within the
loop bounds. -/
def matchWindow (oldLines win : List (List Char)) : Bool :=
  oldLines.length == win.length &&
    (oldLines.zip win).all (fun p => trimBoth p.1 == trimBoth p.2)

/-- The `for (let i = 0; i <= contentLines.length - oldLines.length; ...)`
search: try indices `i, i+1, …` while `fuel` remains, returning the
first one satisfying `p`. -/
def findIdx (p : Nat → Bool) : Nat → Nat → Option Nat
  | 0, _ => none
  | fuel + 1, i => if p i then some i else findIdx p fuel (i + 1)

/-- The first window index (lowest starting index) at which `oldLines`
fuzzily matches `contentLines`; `none` when no window matches. -/
def findMatchIndex (contentLines oldLines : List (List Char)) : Option Nat :=
  findIdx (fun i => matchWindow oldLines ((contentLines.drop i).take oldLines.length))
    (contentLines.length + 1 - oldLines.length) 0

/-- The indentation rewrite of `newText`'s lines inside the fuzzy
branch: the first line gets `originalIndent` plus its own
`trimStart`; a later line whose corresponding old line and itself both
have leading whitespace gets `originalIndent` widened by
`max 0 (newIndent.length - oldIndent.length)` spaces (`Nat`
subtraction is the `Math.max(0, ...)` clamp); otherwise the line is
kept as is. -/
def rewriteNewLines (originalIndent : List Char) (oldLines : List (List Char))
    (normalizedNew : List Char) : List (List Char) :=
  (splitNl normalizedNew).enum.map (fun pair =>
    let j := pair.1
    let line := pair.2
    if j == 0 then originalIndent ++ trimStartL line
    else
      let oldIndent := leadingWs (oldLines.getD j [])
      let newIndent := leadingWs line
      if !oldIndent.isEmpty && !newIndent.isEmpty then
        originalIndent ++ List.replicate (newIndent.length - oldIndent.length) ' ' ++
          trimStartL line
      else line)

/-- The fuzzy replacement at matched window index `i`: capture the
window's first content line's indentation, rewrite `newText`'s lines,
and splice them in place of the window. -/
def applyFuzzy (contentLines oldLines : List (List Char))
    (normalizedNew : List Char) (i : Nat) : List Char :=
  let originalIndent := leadingWs (contentLines.getD i [])
  let newLines := rewriteNewLines originalIndent oldLines normalizedNew
  joinNl (contentLines.take i ++ newLines ++ contentLines.drop (i + oldLines.length))

/-- Message of the `Could not find exact match` throw; note it embeds
the raw (un-normalized) `edit.oldText`. -/
def editNotFoundMsg (oldText : List Char) : List Char :=
  toL "Could not find exact match for edit:\n" ++ oldText

/-- One iteration of the `for (const edit of edits)` loop: exact
substring replacement when the normalized `oldText` occurs, otherwise
the fuzzy window strategy, otherwise the error. -/
def applyEdit (modifiedContent : List Char) (e : Edit) :
    Except (List Char) (List Char) :=
  let normalizedOld := normCRLF e.oldText
  let normalizedNew := normCRLF e.newText
  if containsL modifiedContent normalizedOld then
    .ok (replaceFirst modifiedContent normalizedOld normalizedNew)
  else
    let oldLines := splitNl normalizedOld
    let contentLines := splitNl modifiedContent
    match findMatchIndex contentLines oldLines with
    | some i => .ok (applyFuzzy contentLines oldLines normalizedNew i)
    | none => .error (editNotFoundMsg e.oldText)

/-- The whole edit loop: apply the instructions left to right, each on
the output of the previous one, aborting at the first failure. -/
def applyEditsSeq (content : List Char) : List Edit → Except (List Char) (List Char)
  | [] => .ok content
  | e :: rest =>
    match applyEdit content e with
    | .ok m => applyEditsSeq m rest
    | .error msg => .error msg

/-- A prefix is no longer than the string it heads. -/
theorem startsWithL_length_le :
    ∀ {hay pat : List Char}, startsWithL hay pat = true → pat.length ≤ hay.length := by
  intro hay
  induction hay with
  | nil =>
    intro pat h
    cases pat with
    | nil => simp
    | cons d ds => simp [startsWithL] at h
  | cons c t ih =>
    intro pat h
    cases pat with
    | nil => simp
    | cons d ds =>
      simp only [startsWithL, Bool.and_eq_true] at h
      simpa using Nat.succ_le_succ (ih h.2)

/-- A contained substring is no longer than the containing string. -/
theorem containsL_length_le :
    ∀ {hay pat : List Char}, containsL hay pat = true → pat.length ≤ hay.length := by
  intro hay
  induction hay with
  | nil =>
    intro pat h
    simp only [containsL, List.isEmpty_iff] at h
    simp [h]
  | cons c t ih =>
    intro pat h
    simp only [containsL, Bool.or_eq_true] at h
    rcases h with h | h
    · exact startsWithL_length_le h
    · exact le_trans (ih h) (by simp)

/-- The backtick-fence search: start at `n` and grow while the diff
still contains a run of that many backticks
(`while (diff.includes('`'.repeat(numBackticks))) numBackticks++`). -/
def fenceLen (diff : List Char) (n : Nat) : Nat :=
  if h : containsL diff (List.replicate n '`') = true then fenceLen diff (n + 1)
  else n
termination_by diff.length + 1 - n
decreasing_by
  have hle := containsL_length_le h
  simp only [List.length_replicate] at hle
  omega

/-- The `formattedDiff` expression: the diff wrapped in the chosen
fence, tagged `diff`. -/
def formatDiff (diff : List Char) : List Char :=
  let n := fenceLen diff 3
  List.replicate n '`' ++ toL "diff\n" ++ diff ++ List.replicate n '`' ++ toL "\n\n"

/-- `FileEditor.applyFileEdits` after path validation and file read:
returns the formatted diff together with `some` written content, or
`none` when `dryRun` suppressed the write; a failed edit aborts with
the error before any write. -/
def applyFileEdits (mkDiff : List Char → List Char → List Char)
    (fileContent : List Char) (edits : List Edit) (dryRun : Bool) :
    Except (List Char) (List Char × Option (List Char)) :=
  let content := normCRLF fileContent
  match applyEditsSeq content edits with
  | .error e => .error e
  | .ok modifiedContent =>
    let diff := createUnifiedDiff mkDiff content modifiedContent
    let formattedDiff := formatDiff diff
    .ok (formattedDiff, if dryRun then none else some modifiedContent)

/-- Replace every `"\n"` by `"\r\n"`: the CRLF rendering of an
LF-convention text, used to state line-ending invariance. -/
def toCRLF : List Char → List Char
  | [] => []
  | c :: rest => if c == '\n' then '\r' :: '\n' :: toCRLF rest else c :: toCRLF rest

/-- An edit instruction re-encoded with CRLF line endings. -/
def crlfEdit (e : Edit) : Edit :=
  ⟨toCRLF e.oldText, toCRLF e.newText⟩

/-! ## Concrete filesystem oracles used in witnesses and
counterexamples -/

/-- A filesystem in which `/allowed-dirEVIL/x` exists and is its own
real path. -/
def fsEvil : Realpath := fun p =>
  if p == toL "/allowed-dirEVIL/x" then .ok (toL "/allowed-dirEVIL/x")
  else .error (toL "ENOENT: no such file or directory")

/-- A filesystem in which `/allowed/link` exists and is a symlink whose
real target is `/outside/secret`. -/
def fsLink : Realpath := fun p =>
  if p == toL "/allowed/link" then .ok (toL "/outside/secret")
  else .error (toL "ENOENT: no such file or directory")

/-- A filesystem in which `/allowed/dir` exists (and is its own real
path) but nothing else does. -/
def fsParentOnly : Realpath := fun p =>
  if p == toL "/allowed/dir" then .ok (toL "/allowed/dir")
  else .error (toL "ENOENT: no such file or directory")

/-- A filesystem in which nothing exists. -/
def fsEmpty : Realpath := fun _ =>
  .error (toL "ENOENT: no such file or directory")

/-- A filesystem in which `/allowed/dir` exists but its real path is
the out-of-sandbox directory `/outside/real`. -/
def fsParentOutside : Realpath := fun p =>
  if p == toL "/allowed/dir" then .ok (toL "/outside/real")
  else .error (toL "ENOENT: no such file or directory")

/-! ## Path resolver lemmas -/

/-- Branch analysis of `validatePath` when the nominal allow-list check
passes and `realpath` fails with an `ENOENT` error: the outcome is
decided solely by whether `realpath` of the parent directory succeeds
(its value is never inspected), returning the pre-resolved absolute
path on success and the original error otherwise. -/
theorem validatePath_enoent (d : PathDeps) (fs : Realpath)
    (p : List Char) (roots : List (List Char)) (e : List Char)
    (hallow : isAllowedBy roots (normalizedRequestedOf d p) = true)
    (henoent : fs (absoluteOf d p) = .error e)
    (hmsg : containsL e (toL "ENOENT") = true) :
    validatePath d fs p roots =
      (match fs (d.pathDirname (absoluteOf d p)) with
       | .ok _ => .ok (absoluteOf d p)
       | .error _ => .error e) := by
  unfold validatePath tryRealPath
  unfold normalizedRequestedOf at hallow
  simp [hallow, henoent, hmsg]

/-! ## C1 -/

/-- C1: the claim states that `validatePath` rejects
`"/allowed-dirEVIL/x"` with `AccessDenied` when the only allowed root
is `"/allowed-dir"`.  The code's allow-list test is a raw
`String.startsWith`, so the nominal check passes on that very input and
`validatePath` succeeds, returning the path: the boundary-safe
prefix matching the claim (and the spec's security property) requires
is absent. -/
theorem c1_raw_prefix_allows_evil :
    isAllowedBy [toL "/allowed-dir"]
        (normalizedRequestedOf posixDeps (toL "/allowed-dirEVIL/x")) = true ∧
    validatePath posixDeps fsEvil (toL "/allowed-dirEVIL/x") [toL "/allowed-dir"] =
      .ok (toL "/allowed-dirEVIL/x") :=
  ⟨rfl, rfl⟩

/-! ## C2 -/

/-- C2: whenever the requested path exists (realpath succeeds) and its
real path fails the allow-list test, `validatePath` fails with the
symlink `Access denied` error; the error raised inside the real-path
branch reaches the caller unchanged — the catch block's `ENOENT`
fallback does not swallow it, because the message does not contain
`ENOENT`. -/
theorem c2_symlink_escape_denied (d : PathDeps) (fs : Realpath)
    (p : List Char) (roots : List (List Char)) (realP : List Char)
    (hallow : isAllowedBy roots (normalizedRequestedOf d p) = true)
    (hreal : fs (absoluteOf d p) = .ok realP)
    (hout : isAllowedBy roots (normalizePath d realP) = false) :
    validatePath d fs p roots = .error symlinkDeniedMsg := by
  unfold validatePath tryRealPath
  unfold normalizedRequestedOf at hallow
  simp [hallow, hreal, hout,
    show containsL symlinkDeniedMsg (toL "ENOENT") = false from rfl]

/-- Witness for C2: a symlink at `/allowed/link` pointing at
`/outside/secret` is rejected with the symlink `Access denied`
error. -/
theorem c2_symlink_escape_denied_witness :
    validatePath posixDeps fsLink (toL "/allowed/link") [toL "/allowed"] =
      .error symlinkDeniedMsg :=
  c2_symlink_escape_denied posixDeps fsLink (toL "/allowed/link")
    [toL "/allowed"] (toL "/outside/secret") rfl rfl rfl

/-! ## C3 -/

/-- C3: when the nominal allow-list check passes but the requested path
does not exist (`realpath` fails with `ENOENT`), `validatePath`
returns the pre-resolved absolute path if the parent directory is
resolvable, and propagates the original not-found error if the parent
is unresolvable too. -/
theorem c3_parent_fallback (d : PathDeps) (fs : Realpath)
    (p : List Char) (roots : List (List Char)) (e : List Char)
    (hallow : isAllowedBy roots (normalizedRequestedOf d p) = true)
    (henoent : fs (absoluteOf d p) = .error e)
    (hmsg : containsL e (toL "ENOENT") = true) :
    (∀ q, fs (d.pathDirname (absoluteOf d p)) = .ok q →
      validatePath d fs p roots = .ok (absoluteOf d p)) ∧
    (∀ e', fs (d.pathDirname (absoluteOf d p)) = .error e' →
      validatePath d fs p roots = .error e) := by
  have h := validatePath_enoent d fs p roots e hallow henoent hmsg
  constructor
  · intro q hq
    rw [h, hq]
  · intro e' he'
    rw [h, he']

/-- Witness for C3: `/allowed/dir/new.txt` resolves to itself when
`/allowed/dir` exists, and fails with the original `ENOENT` error when
`/allowed/dir` does not exist either. -/
theorem c3_parent_fallback_witness :
    validatePath posixDeps fsParentOnly (toL "/allowed/dir/new.txt") [toL "/allowed"] =
      .ok (toL "/allowed/dir/new.txt") ∧
    validatePath posixDeps fsEmpty (toL "/allowed/dir/new.txt") [toL "/allowed"] =
      .error (toL "ENOENT: no such file or directory") :=
  ⟨(c3_parent_fallback posixDeps fsParentOnly (toL "/allowed/dir/new.txt")
      [toL "/allowed"] (toL "ENOENT: no such file or directory") rfl rfl rfl).1
      (toL "/allowed/dir") rfl,
   (c3_parent_fallback posixDeps fsEmpty (toL "/allowed/dir/new.txt")
      [toL "/allowed"] (toL "ENOENT: no such file or directory") rfl rfl rfl).2
      (toL "ENOENT: no such file or directory") rfl⟩

/-! ## C10 -/

/-- C10: for a non-existent requested path that passes the nominal
allow-list check, the outcome of `validatePath` depends only on whether
`realpath` of the parent directory succeeds, never on where the parent
really points: any two filesystems in which the parent resolves to
arbitrary (possibly different, possibly out-of-sandbox) real locations
yield the same successful result, the pre-resolved absolute path. -/
theorem c10_parent_target_never_checked (d : PathDeps) (fs1 fs2 : Realpath)
    (p : List Char) (roots : List (List Char)) (e1 e2 q1 q2 : List Char)
    (hallow : isAllowedBy roots (normalizedRequestedOf d p) = true)
    (h1 : fs1 (absoluteOf d p) = .error e1)
    (hm1 : containsL e1 (toL "ENOENT") = true)
    (h2 : fs2 (absoluteOf d p) = .error e2)
    (hm2 : containsL e2 (toL "ENOENT") = true)
    (hp1 : fs1 (d.pathDirname (absoluteOf d p)) = .ok q1)
    (hp2 : fs2 (d.pathDirname (absoluteOf d p)) = .ok q2) :
    validatePath d fs1 p roots = .ok (absoluteOf d p) ∧
    validatePath d fs2 p roots = .ok (absoluteOf d p) := by
  constructor
  · rw [validatePath_enoent d fs1 p roots e1 hallow h1 hm1, hp1]
  · rw [validatePath_enoent d fs2 p roots e2 hallow h2 hm2, hp2]

/-- Witness for C10: `/allowed/dir/new.txt` resolves identically (to
itself) whether the parent's real path is `/allowed/dir` (inside the
sandbox) or `/outside/real` (outside it). -/
theorem c10_parent_target_never_checked_witness :
    validatePath posixDeps fsParentOnly (toL "/allowed/dir/new.txt") [toL "/allowed"] =
      .ok (toL "/allowed/dir/new.txt") ∧
    validatePath posixDeps fsParentOutside (toL "/allowed/dir/new.txt") [toL "/allowed"] =
      .ok (toL "/allowed/dir/new.txt") :=
  c10_parent_target_never_checked posixDeps fsParentOnly fsParentOutside
    (toL "/allowed/dir/new.txt") [toL "/allowed"]
    (toL "ENOENT: no such file or directory") (toL "ENOENT: no such file or directory")
    (toL "/allowed/dir") (toL "/outside/real")
    rfl rfl rfl rfl rfl rfl rfl

/-! ## Patch engine lemmas -/

/-- The edit loop over a concatenation: run the first block, then the
second on its output, aborting on the first failure. -/
theorem applyEditsSeq_append :
    ∀ (pre rest : List Edit) (c : List Char),
      applyEditsSeq c (pre ++ rest) =
        match applyEditsSeq c pre with
        | .ok m => applyEditsSeq m rest
        | .error er => .error er := by
  intro pre
  induction pre with
  | nil => intro rest c; simp [applyEditsSeq]
  | cons e pre ih =>
    intro rest c
    simp only [List.cons_append, applyEditsSeq]
    cases applyEdit c e with
    | ok m => exact ih rest m
    | error msg => rfl

/-- An edit that matches neither exactly nor fuzzily fails with the
message embedding its raw `oldText`. -/
theorem applyEdit_unmatched (m : List Char) (e : Edit)
    (hexact : containsL m (normCRLF e.oldText) = false)
    (hfuzzy : findMatchIndex (splitNl m) (splitNl (normCRLF e.oldText)) = none) :
    applyEdit m e = .error (editNotFoundMsg e.oldText) := by
  unfold applyEdit
  simp [hexact, hfuzzy]

/-! ## C4 -/

/-- C4: if, after the preceding instructions have produced working
content `m`, some instruction's `oldText` matches `m` neither exactly
(`includes`) nor by the fuzzy window strategy, the whole
`applyFileEdits` call fails with the error identifying that `oldText`,
and no write occurs — the call never produces an `.ok` result, and in
the embedding only `.ok` results carry a write. -/
theorem c4_unmatched_edit_aborts (mkDiff : List Char → List Char → List Char)
    (c : List Char) (pre : List Edit) (e : Edit) (rest : List Edit)
    (dr : Bool) (m : List Char)
    (hpre : applyEditsSeq (normCRLF c) pre = .ok m)
    (hexact : containsL m (normCRLF e.oldText) = false)
    (hfuzzy : findMatchIndex (splitNl m) (splitNl (normCRLF e.oldText)) = none) :
    applyFileEdits mkDiff c (pre ++ e :: rest) dr = .error (editNotFoundMsg e.oldText) ∧
    ∀ out, applyFileEdits mkDiff c (pre ++ e :: rest) dr ≠ .ok out := by
  have hseq : applyEditsSeq (normCRLF c) (pre ++ e :: rest) =
      .error (editNotFoundMsg e.oldText) := by
    rw [applyEditsSeq_append, hpre]
    simp [applyEditsSeq, applyEdit_unmatched m e hexact hfuzzy]
  have hmain : applyFileEdits mkDiff c (pre ++ e :: rest) dr =
      .error (editNotFoundMsg e.oldText) := by
    simp [applyFileEdits, hseq]
  exact ⟨hmain, fun out h => by rw [hmain] at h; exact Except.noConfusion h⟩

/-- Witness for C4: after the first instruction rewrites `hello` to
`bye`, the second instruction's `oldText` `xyz\nq` matches nothing, and
the whole call fails with the message naming it. -/
theorem c4_unmatched_edit_aborts_witness :
    applyFileEdits (fun a b => a ++ b) (toL "hello")
        [⟨toL "hello", toL "bye"⟩, ⟨toL "xyz\nq", toL "n"⟩] false =
      .error (editNotFoundMsg (toL "xyz\nq")) :=
  (c4_unmatched_edit_aborts (fun a b => a ++ b) (toL "hello")
    [⟨toL "hello", toL "bye"⟩] ⟨toL "xyz\nq", toL "n"⟩ [] false (toL "bye")
    rfl rfl rfl).1

/-! ## C5 -/

/-- C5: when the edit sequence applies successfully and `dryRun` is
`true`, `applyFileEdits` returns the fenced unified diff and performs
no write: the write component of the result is `none`, so the on-disk
content is untouched. -/
theorem c5_dry_run_no_write (mkDiff : List Char → List Char → List Char)
    (c : List Char) (edits : List Edit) (m : List Char)
    (h : applyEditsSeq (normCRLF c) edits = .ok m) :
    applyFileEdits mkDiff c edits true =
      .ok (formatDiff (createUnifiedDiff mkDiff (normCRLF c) m), none) := by
  simp [applyFileEdits, h]

/-- Witness for C5: a successful dry-run edit of `hello\nworld` returns
the fenced diff and writes nothing. -/
theorem c5_dry_run_no_write_witness :
    applyFileEdits (fun a b => a ++ toL "->" ++ b) (toL "hello\nworld")
        [⟨toL "world", toL "there"⟩] true =
      .ok (formatDiff (createUnifiedDiff (fun a b => a ++ toL "->" ++ b)
        (normCRLF (toL "hello\nworld")) (toL "hello\nthere")), none) :=
  c5_dry_run_no_write (fun a b => a ++ toL "->" ++ b) (toL "hello\nworld")
    [⟨toL "world", toL "there"⟩] (toL "hello\nthere") rfl

/-- The fence search never shrinks its starting width. -/
theorem fenceLen_ge (diff : List Char) (n : Nat) : n ≤ fenceLen diff n := by
  induction n using fenceLen.induct diff with
  | case1 n h ih =>
    rw [fenceLen, dif_pos h]
    omega
  | case2 n h =>
    rw [fenceLen, dif_neg h]

/-- The chosen fence width is collision-free: the diff contains no run
of that many backticks. -/
theorem fenceLen_not_contains (diff : List Char) (n : Nat) :
    containsL diff (List.replicate (fenceLen diff n) '`') = false := by
  induction n using fenceLen.induct diff with
  | case1 n h ih =>
    rw [fenceLen, dif_pos h]
    exact ih
  | case2 n h =>
    rw [fenceLen, dif_neg h]
    simpa using h

/-- The fence grows one repetition at a time: every width from the
start up to (excluding) the chosen one still collides with the diff. -/
theorem fenceLen_minimal (diff : List Char) (n : Nat) :
    ∀ k, n ≤ k → k < fenceLen diff n →
      containsL diff (List.replicate k '`') = true := by
  induction n using fenceLen.induct diff with
  | case1 n h ih =>
    intro k hnk hk
    rw [fenceLen, dif_pos h] at hk
    rcases Nat.eq_or_lt_of_le hnk with rfl | hlt
    · exact h
    · exact ih k hlt hk
  | case2 n h =>
    intro k hnk hk
    rw [fenceLen, dif_neg h] at hk
    omega

/-! ## C9 -/

/-- C9: every successful `applyFileEdits` result wraps the unified diff
in a backtick fence whose width `n = fenceLen d 3` satisfies `3 ≤ n`,
the diff contains no run of `n` backticks, and the width was grown one
repetition at a time: every smaller candidate width from 3 up still
collides with the diff. -/
theorem c9_backtick_fence (mkDiff : List Char → List Char → List Char)
    (c : List Char) (edits : List Edit) (dr : Bool)
    (out : List Char × Option (List Char))
    (h : applyFileEdits mkDiff c edits dr = .ok out) :
    ∃ d : List Char,
      out.1 = List.replicate (fenceLen d 3) '`' ++ toL "diff\n" ++ d ++
        List.replicate (fenceLen d 3) '`' ++ toL "\n\n" ∧
      3 ≤ fenceLen d 3 ∧
      containsL d (List.replicate (fenceLen d 3) '`') = false ∧
      ∀ k, 3 ≤ k → k < fenceLen d 3 → containsL d (List.replicate k '`') = true := by
  revert h
  simp only [applyFileEdits]
  cases hseq : applyEditsSeq (normCRLF c) edits with
  | error e => intro h; exact absurd h (by simp)
  | ok m =>
    intro h
    simp only [Except.ok.injEq] at h
    refine ⟨createUnifiedDiff mkDiff (normCRLF c) m, ?_,
      fenceLen_ge _ 3, fenceLen_not_contains _ 3,
      fun k hk hk2 => fenceLen_minimal _ 3 k hk hk2⟩
    rw [← h]
    rfl

/-- Witness for C9: with a diff containing a run of three backticks,
the fence is four backticks wide. -/
theorem c9_backtick_fence_witness :
    (∃ d : List Char,
      (formatDiff (toL "x```x"), some (toL "a")).1 =
        List.replicate (fenceLen d 3) '`' ++ toL "diff\n" ++ d ++
          List.replicate (fenceLen d 3) '`' ++ toL "\n\n" ∧
      3 ≤ fenceLen d 3 ∧
      containsL d (List.replicate (fenceLen d 3) '`') = false ∧
      ∀ k, 3 ≤ k → k < fenceLen d 3 → containsL d (List.replicate k '`') = true) ∧
    fenceLen (toL "x```x") 3 = 4 :=
  ⟨c9_backtick_fence (fun _ _ => toL "x```x") (toL "a") [] false
    (formatDiff (toL "x```x"), some (toL "a")) rfl, by
      rw [fenceLen, dif_pos (by decide), fenceLen, dif_neg (by decide)]⟩

/-- A successful `startsWithL` really is a prefix decomposition. -/
theorem startsWithL_decompose :
    ∀ {pat hay : List Char}, startsWithL hay pat = true →
      pat ++ hay.drop pat.length = hay := by
  intro pat
  induction pat with
  | nil => intro hay _; simp
  | cons d ds ih =>
    intro hay h
    cases hay with
    | nil => simp [startsWithL] at h
    | cons c cs =>
      simp only [startsWithL, Bool.and_eq_true, beq_iff_eq] at h
      obtain ⟨rfl, h2⟩ := h
      simpa using ih h2

/-- `replaceFirst` replaces exactly the first occurrence: the haystack
decomposes as `pre ++ old ++ suf`, the result is `pre ++ new ++ suf`,
and no occurrence of `old` starts before `pre` ends. -/
theorem replaceFirst_spec (old new : List Char) :
    ∀ hay, containsL hay old = true →
      ∃ pre suf, hay = pre ++ old ++ suf ∧
        replaceFirst hay old new = pre ++ new ++ suf ∧
        ∀ k, k < pre.length → startsWithL (hay.drop k) old = false := by
  intro hay
  induction hay with
  | nil =>
    intro h
    simp only [containsL, List.isEmpty_iff] at h
    exact ⟨[], [], by simp [h], by simp [replaceFirst, h], by simp⟩
  | cons c t ih =>
    intro h
    by_cases hs : startsWithL (c :: t) old = true
    · refine ⟨[], (c :: t).drop old.length, ?_, ?_, by simp⟩
      · simpa using (startsWithL_decompose hs).symm
      · simp [replaceFirst, hs]
    · have hs' : startsWithL (c :: t) old = false := by simpa using hs
      have hct : containsL t old = true := by
        simp only [containsL, Bool.or_eq_true] at h
        rcases h with h | h
        · exact absurd h hs
        · exact h
      obtain ⟨pre, suf, h1, h2, h3⟩ := ih hct
      refine ⟨c :: pre, suf, by simp [h1], ?_, ?_⟩
      · simp only [replaceFirst, hs', Bool.false_eq_true, if_false, h2]
        rfl
      · intro k hk
        cases k with
        | zero => simpa using hs'
        | succ k =>
          simp only [List.drop_succ_cons]
          exact h3 k (Nat.lt_of_succ_lt_succ hk)

/-- The window-search loop returns the first satisfying index: the
returned index satisfies the predicate and every earlier index in the
scanned range does not. -/
theorem findIdx_spec (p : Nat → Bool) :
    ∀ (fuel i j : Nat), findIdx p fuel i = some j →
      p j = true ∧ i ≤ j ∧ ∀ k, i ≤ k → k < j → p k = false := by
  intro fuel
  induction fuel with
  | zero => intro i j h; simp [findIdx] at h
  | succ fuel ih =>
    intro i j h
    rw [findIdx] at h
    by_cases hp : p i = true
    · rw [if_pos hp] at h
      obtain rfl : i = j := by simpa using h
      exact ⟨hp, Nat.le_refl i, fun k hk1 hk2 => absurd (Nat.lt_of_le_of_lt hk1 hk2)
        (Nat.lt_irrefl i)⟩
    · rw [if_neg hp] at h
      obtain ⟨hj, hij, hmin⟩ := ih (i + 1) j h
      refine ⟨hj, by omega, fun k hk1 hk2 => ?_⟩
      rcases Nat.eq_or_lt_of_le hk1 with rfl | hlt
      · simpa using hp
      · exact hmin k hlt hk2

/-- The fuzzy window test holds exactly when the window has `oldText`'s
line count and every window line, after trimming leading and trailing
whitespace, equals the corresponding `oldText` line trimmed the same
way. -/
theorem matchWindow_iff :
    ∀ (ol win : List (List Char)), matchWindow ol win = true ↔
      (ol.length = win.length ∧
        ∀ j, j < ol.length → trimBoth (ol.getD j []) = trimBoth (win.getD j [])) := by
  intro ol
  induction ol with
  | nil =>
    intro win
    simp only [matchWindow, List.zip_nil_left, List.all_nil, Bool.and_true, beq_iff_eq,
      List.length_nil]
    constructor
    · intro h
      exact ⟨h, fun j hj => absurd hj (Nat.not_lt_zero j)⟩
    · intro h
      exact h.1
  | cons a ol ih =>
    intro win
    cases win with
    | nil =>
      constructor
      · intro h; simp [matchWindow] at h
      · intro h; simp at h
    | cons b win =>
      have ihw := ih win
      constructor
      · intro h
        simp only [matchWindow, List.length_cons, List.zip_cons_cons, List.all_cons,
          Bool.and_eq_true, beq_iff_eq] at h
        obtain ⟨hlen, hab, hall⟩ := h
        have hmw : matchWindow ol win = true := by
          simp only [matchWindow, Bool.and_eq_true, beq_iff_eq]
          exact ⟨by omega, hall⟩
        obtain ⟨hlen', hidx⟩ := ihw.mp hmw
        refine ⟨by simpa using hlen, ?_⟩
        intro j hj
        cases j with
        | zero => simpa using hab
        | succ j =>
          simpa using hidx j (by simpa using hj)
      · rintro ⟨hlen, hidx⟩
        have hmw : matchWindow ol win = true := ihw.mpr
          ⟨by simpa using hlen,
           fun j hj => by simpa using hidx (j + 1) (by simpa using hj)⟩
        have hall : (List.zip ol win).all (fun p => trimBoth p.1 == trimBoth p.2) = true := by
          simp only [matchWindow, Bool.and_eq_true] at hmw
          exact hmw.2
        simp only [matchWindow, List.length_cons, List.zip_cons_cons, List.all_cons,
          Bool.and_eq_true, beq_iff_eq]
        exact ⟨by simpa using hlen, by simpa using hidx 0 (by simp), hall⟩

/-! ## C6 -/

/-- C6: if the working content contains the normalized `oldText`
verbatim, exactly the first occurrence is replaced (no occurrence
starts earlier) and the fuzzy strategy is not used; only otherwise does
the engine fall back to the fuzzy strategy, which uses the first
matching window by ascending start index, and a window matches iff
every window line equals the corresponding `oldText` line after
trimming both ends. -/
theorem c6_exact_first_fuzzy_fallback (m : List Char) (e : Edit) :
    (containsL m (normCRLF e.oldText) = true →
      applyEdit m e = .ok (replaceFirst m (normCRLF e.oldText) (normCRLF e.newText)) ∧
      ∃ pre suf, m = pre ++ normCRLF e.oldText ++ suf ∧
        replaceFirst m (normCRLF e.oldText) (normCRLF e.newText) =
          pre ++ normCRLF e.newText ++ suf ∧
        ∀ k, k < pre.length → startsWithL (m.drop k) (normCRLF e.oldText) = false) ∧
    (containsL m (normCRLF e.oldText) = false →
      ∀ i, findMatchIndex (splitNl m) (splitNl (normCRLF e.oldText)) = some i →
        applyEdit m e = .ok (applyFuzzy (splitNl m) (splitNl (normCRLF e.oldText))
          (normCRLF e.newText) i) ∧
        matchWindow (splitNl (normCRLF e.oldText))
          (((splitNl m).drop i).take (splitNl (normCRLF e.oldText)).length) = true ∧
        ∀ k, k < i →
          matchWindow (splitNl (normCRLF e.oldText))
            (((splitNl m).drop k).take (splitNl (normCRLF e.oldText)).length) = false) ∧
    (∀ ol win : List (List Char), matchWindow ol win = true ↔
      (ol.length = win.length ∧
        ∀ j, j < ol.length → trimBoth (ol.getD j []) = trimBoth (win.getD j []))) := by
  refine ⟨?_, ?_, matchWindow_iff⟩
  · intro hc
    have happly : applyEdit m e =
        .ok (replaceFirst m (normCRLF e.oldText) (normCRLF e.newText)) := by
      unfold applyEdit
      simp [hc]
    obtain ⟨pre, suf, h1, h2, h3⟩ :=
      replaceFirst_spec (normCRLF e.oldText) (normCRLF e.newText) m hc
    exact ⟨happly, pre, suf, h1, h2, h3⟩
  · intro hc i hfind
    have happly : applyEdit m e = .ok (applyFuzzy (splitNl m)
        (splitNl (normCRLF e.oldText)) (normCRLF e.newText) i) := by
      unfold applyEdit
      simp [hc, hfind]
    rw [findMatchIndex] at hfind
    obtain ⟨hp, _, hmin⟩ := findIdx_spec _ _ _ _ hfind
    exact ⟨happly, hp, fun k hk => hmin k (Nat.zero_le k) hk⟩

/-- Witness for C6: an exact occurrence is replaced in place, and a
trailing-whitespace mismatch falls back to the fuzzy window match with
indentation taken from the content. -/
theorem c6_exact_first_fuzzy_fallback_witness :
    applyEdit (toL "ab old cd") ⟨toL "old", toL "new"⟩ = .ok (toL "ab new cd") ∧
    applyEdit (toL "a\n   ret x\nb") ⟨toL "ret x ", toL "ret y"⟩ =
      .ok (toL "a\n   ret y\nb") := by
  constructor
  · have h := (c6_exact_first_fuzzy_fallback (toL "ab old cd")
      ⟨toL "old", toL "new"⟩).1 rfl
    exact h.1.trans rfl
  · have h := ((c6_exact_first_fuzzy_fallback (toL "a\n   ret x\nb")
      ⟨toL "ret x ", toL "ret y"⟩).2.1 rfl 1 rfl)
    exact h.1.trans rfl

/-- Indexing into `l.enum.map f`: the `j`-th element is `f` applied to
the index paired with the `j`-th element of `l`. -/
theorem enum_map_getD {α β : Type} (l : List α) (f : Nat × α → β) (j : Nat)
    (dα : α) (dβ : β) (hj : j < l.length) :
    (l.enum.map f).getD j dβ = f (j, l.getD j dα) := by
  have hj1 : j < (l.enum.map f).length := by simpa using hj
  rw [List.getD_eq_getElem _ _ hj1, List.getElem_map, List.getElem_enum,
    List.getD_eq_getElem _ _ hj]

/-! ## C7 -/

/-- C7: in the fuzzy indentation rewrite, the first new line is the
captured indentation prepended to its own trim-start; a later line
whose corresponding old line and itself both have leading whitespace
gets the captured indentation widened by the (clamped-at-zero)
difference of the two whitespace lengths, and a line where either side
has no leading whitespace is used unmodified; `applyFuzzy` applies this
rewrite with the matched window's first content line's leading
whitespace as the captured indentation. -/
theorem c7_indentation_rewrite (ind : List Char) (ol : List (List Char)) (nn : List Char) :
    (rewriteNewLines ind ol nn).length = (splitNl nn).length ∧
    (0 < (splitNl nn).length →
      (rewriteNewLines ind ol nn).getD 0 [] =
        ind ++ trimStartL ((splitNl nn).getD 0 [])) ∧
    (∀ j, 0 < j → j < (splitNl nn).length →
      (rewriteNewLines ind ol nn).getD j [] =
        (if !(leadingWs (ol.getD j [])).isEmpty &&
            !(leadingWs ((splitNl nn).getD j [])).isEmpty then
          ind ++ List.replicate ((leadingWs ((splitNl nn).getD j [])).length -
            (leadingWs (ol.getD j [])).length) ' ' ++
            trimStartL ((splitNl nn).getD j [])
        else (splitNl nn).getD j [])) ∧
    (∀ (cl : List (List Char)) (i : Nat), applyFuzzy cl ol nn i =
      joinNl (cl.take i ++ rewriteNewLines (leadingWs (cl.getD i [])) ol nn ++
        cl.drop (i + ol.length))) := by
  refine ⟨by simp [rewriteNewLines], ?_, ?_, fun cl i => rfl⟩
  · intro h0
    rw [rewriteNewLines, enum_map_getD (splitNl nn) _ 0 [] [] h0]
    simp
  · intro j hj0 hjlen
    rw [rewriteNewLines, enum_map_getD (splitNl nn) _ j [] [] hjlen]
    have hne : (j == 0) = false := by
      simp only [beq_eq_false_iff_ne, ne_eq]
      omega
    simp only [hne, Bool.false_eq_true, if_false]

/-- Witness for C7: with captured indentation of two spaces, old lines
`a` / `  b` and new text `x\n    y`, the first line becomes `  x` and
the second, both sides indented, becomes four spaces plus `y`. -/
theorem c7_indentation_rewrite_witness :
    (rewriteNewLines (toL "  ") [toL "a", toL "  b"] (toL "x\n    y")).getD 0 [] =
      toL "  x" ∧
    (rewriteNewLines (toL "  ") [toL "a", toL "  b"] (toL "x\n    y")).getD 1 [] =
      toL "    y" := by
  have h := c7_indentation_rewrite (toL "  ") [toL "a", toL "  b"] (toL "x\n    y")
  constructor
  · exact (h.2.1 (by decide)).trans (by decide)
  · exact (h.2.2.1 1 (by decide) (by decide)).trans (by decide)

/-- Unfolding equation for `normCRLF` on two or more characters. -/
theorem normCRLF_cons2 (c1 c2 : Char) (rest : List Char) :
    normCRLF (c1 :: c2 :: rest) =
      if c1 == '\r' && c2 == '\n' then '\n' :: normCRLF rest
      else c1 :: normCRLF (c2 :: rest) := rfl

/-- A text without carriage returns is already normalized. -/
theorem normCRLF_of_no_cr : ∀ (s : List Char), '\r' ∉ s → normCRLF s = s := by
  intro s
  induction s using normCRLF.induct with
  | case1 => intro _; rfl
  | case2 c => intro _; rfl
  | case3 c1 c2 rest hcond ih =>
    intro h
    exfalso
    simp only [Bool.and_eq_true, beq_iff_eq] at hcond
    exact h (by simp [hcond.1])
  | case4 c1 c2 rest hcond ih =>
    intro h
    rw [normCRLF_cons2, if_neg hcond]
    have htail : '\r' ∉ c2 :: rest := fun hm => h (List.mem_cons_of_mem c1 hm)
    rw [ih htail]

/-- `toCRLF` of a non-empty text is non-empty. -/
theorem toCRLF_ne_nil (c : Char) (rest : List Char) : toCRLF (c :: rest) ≠ [] := by
  rw [toCRLF]
  by_cases h : (c == '\n') = true
  · rw [if_pos h]; exact List.cons_ne_nil _ _
  · rw [if_neg h]; exact List.cons_ne_nil _ _

/-- Normalizing the CRLF rendering of a carriage-return-free text gives
the text back. -/
theorem normCRLF_toCRLF : ∀ (s : List Char), '\r' ∉ s → normCRLF (toCRLF s) = s := by
  intro s
  induction s with
  | nil => intro _; rfl
  | cons c rest ih =>
    intro h
    have hc : c ≠ '\r' := fun he => h (by simp [he])
    have htail : '\r' ∉ rest := fun hm => h (List.mem_cons_of_mem c hm)
    by_cases hn : c = '\n'
    · subst hn
      rw [toCRLF, if_pos (by simp), normCRLF_cons2, if_pos (by simp), ih htail]
    · rw [toCRLF, if_neg (by simpa using hn)]
      cases htl : toCRLF rest with
      | nil =>
        have : rest = [] := by
          cases rest with
          | nil => rfl
          | cons d t => exact absurd htl (toCRLF_ne_nil d t)
        subst this
        rfl
      | cons d t =>
        rw [normCRLF_cons2, if_neg (by simp [hc]), ← htl, ih htail]

/-- A CRLF-re-encoded edit behaves like the original on
carriage-return-free instruction text: same successes with the same
output, and failures differ only in the raw `oldText` echoed in the
message. -/
theorem applyEdit_crlf (e : Edit) (h1 : '\r' ∉ e.oldText) (h2 : '\r' ∉ e.newText)
    (m : List Char) :
    applyEdit m (crlfEdit e) =
      match applyEdit m e with
      | .ok v => .ok v
      | .error _ => .error (editNotFoundMsg (toCRLF e.oldText)) := by
  have ho : normCRLF (toCRLF e.oldText) = normCRLF e.oldText := by
    rw [normCRLF_toCRLF _ h1, normCRLF_of_no_cr _ h1]
  have hn : normCRLF (toCRLF e.newText) = normCRLF e.newText := by
    rw [normCRLF_toCRLF _ h2, normCRLF_of_no_cr _ h2]
  unfold applyEdit crlfEdit
  simp only [ho, hn]
  by_cases hc : containsL m (normCRLF e.oldText) = true
  · simp [hc]
  · have hc' : containsL m (normCRLF e.oldText) = false := by simpa using hc
    simp only [hc', Bool.false_eq_true, if_false]
    cases hf : findMatchIndex (splitNl m) (splitNl (normCRLF e.oldText)) <;> simp [hf]

/-- CRLF invariance of the whole edit loop on carriage-return-free
instruction text: the re-encoded sequence succeeds with a given final
content exactly when the original does. -/
theorem applyEditsSeq_crlf (edits : List Edit)
    (h : ∀ e ∈ edits, '\r' ∉ e.oldText ∧ '\r' ∉ e.newText) :
    ∀ (c m : List Char),
      applyEditsSeq c (edits.map crlfEdit) = .ok m ↔ applyEditsSeq c edits = .ok m := by
  induction edits with
  | nil => intro c m; simp [applyEditsSeq]
  | cons e rest ih =>
    intro c m
    have he := h e (List.mem_cons_self e rest)
    have hrest : ∀ e' ∈ rest, '\r' ∉ e'.oldText ∧ '\r' ∉ e'.newText :=
      fun e' he' => h e' (List.mem_cons_of_mem e he')
    simp only [List.map_cons, applyEditsSeq]
    rw [applyEdit_crlf e he.1 he.2 c]
    cases hae : applyEdit c e with
    | ok v => exact ih hrest v m
    | error msg => simp

/-! ## C8 -/

/-- C8: `applyFileEdits` is invariant under re-encoding the instruction
text with CRLF line endings: for instruction texts without stray
carriage returns, the call on the CRLF-encoded edits succeeds with a
given diff and written content exactly when the call on the LF-encoded
edits does — both the file content and every `oldText`/`newText` are
normalized before any comparison. -/
theorem c8_crlf_invariance (edits : List Edit)
    (h : ∀ e ∈ edits, '\r' ∉ e.oldText ∧ '\r' ∉ e.newText) :
    ∀ (mkDiff : List Char → List Char → List Char) (c : List Char) (dr : Bool)
      (out : List Char × Option (List Char)),
      applyFileEdits mkDiff c (edits.map crlfEdit) dr = .ok out ↔
        applyFileEdits mkDiff c edits dr = .ok out := by
  intro mkDiff c dr out
  simp only [applyFileEdits]
  cases hseq : applyEditsSeq (normCRLF c) edits with
  | ok m =>
    have hseq' : applyEditsSeq (normCRLF c) (edits.map crlfEdit) = .ok m :=
      (applyEditsSeq_crlf edits h _ m).mpr hseq
    rw [hseq']
  | error msg =>
    cases hseq' : applyEditsSeq (normCRLF c) (edits.map crlfEdit) with
    | ok m2 =>
      have := (applyEditsSeq_crlf edits h _ m2).mp hseq'
      rw [hseq] at this
      exact absurd this (by simp)
    | error msg2 => simp

/-- Witness for C8: the CRLF-encoded form `a\r\nb → c\r\nd` of the edit
`a\nb → c\nd` produces the identical final content on
`p\na\nb\nq`. -/
theorem c8_crlf_invariance_witness :
    applyFileEdits (fun a b => a ++ b) (toL "p\na\nb\nq")
        ([⟨toL "a\nb", toL "c\nd"⟩].map crlfEdit) false =
      .ok (formatDiff (createUnifiedDiff (fun a b => a ++ b)
        (normCRLF (toL "p\na\nb\nq")) (toL "p\nc\nd\nq")), some (toL "p\nc\nd\nq")) :=
  (c8_crlf_invariance [⟨toL "a\nb", toL "c\nd"⟩] (by decide)
    (fun a b => a ++ b) (toL "p\na\nb\nq") false _).mpr rfl

end FsServer
